import Mathlib

/-!
Verification development for the quantum noise-error-modeling simulator.

The definitions below are a shallow embedding of the simulator core
(`QuantumSimulator` class: `simulate`, `applyGate`, `applyNoiseModel`,
`calculateFidelity`, `toDict`) together with the gate/noise data model.
JavaScript floating-point numbers are modelled by real numbers; the
amplitude array is modelled as a total function `ℕ → Amp` read and
written only at indices below `2 ^ numQubits`, exactly as the source
indexes its dense arrays.  The in-place loops of the source are embedded
as left folds over `List.range states` carrying the mutated array, so
that sequential-update behaviour (reads of already-written entries) is
preserved faithfully.
-/

namespace NoiseLab

/-- A complex amplitude, the `{ real, imag }` record of the source. -/
structure Amp where
  real : ℝ
  imag : ℝ

/-- Gate kinds of the source `GateType` enum. -/
inductive GateType where
  | H | X | Y | Z | CNOT | I
deriving DecidableEq

/-- Noise kinds of the source `NoiseType` enum. -/
inductive NoiseType where
  | DEPOLARIZING | AMPLITUDE_DAMPING | PHASE_DAMPING | BIT_FLIP | PHASE_FLIP
deriving DecidableEq

/-- The source `Gate` record: id, kind, target qubit, optional control, time. -/
structure Gate where
  id : String
  type : GateType
  qubit : ℕ
  control : Option ℕ
  time : ℕ
deriving DecidableEq

/-- The source `NoiseConfig` record: noise kind and probability parameter. -/
structure NoiseConfig where
  type : NoiseType
  probability : ℝ

/-- The three-line temporary swap of the source
(`temp = a[i]; a[i] = a[j]; a[j] = temp`) on a functional array. -/
def swapIdx (f : ℕ → Amp) (i j : ℕ) : ℕ → Amp :=
  fun k => if k = i then f j else if k = j then f i else f k

/-- Loop body of the `PauliX` branch of `applyGate`: conditional pair swap. -/
def xStep (qubit : ℕ) (newAmps : ℕ → Amp) (i : ℕ) : ℕ → Amp :=
  let mask := 1 <<< qubit
  let target := i ^^^ mask
  if i < target then swapIdx newAmps i target else newAmps

/-- Loop body of the `Hadamard` branch of `applyGate`.  The state carries
the array being written (`newAmps`) and the `processed` index set; the
right-hand sides read the loop-invariant `amplitudes` array, exactly as in
the source. -/
noncomputable def hStep (amplitudes : ℕ → Amp) (invSqrt2 : ℝ) (mask : ℕ)
    (st : (ℕ → Amp) × Finset ℕ) (i : ℕ) : (ℕ → Amp) × Finset ℕ :=
  if i ∈ st.2 then st
  else
    let j := i ^^^ mask
    let low := if i &&& mask ≠ 0 then j else i
    let high := if i &&& mask ≠ 0 then i else j
    (fun k =>
      if k = low then
        ⟨((amplitudes low).real + (amplitudes high).real) * invSqrt2,
         ((amplitudes low).imag + (amplitudes high).imag) * invSqrt2⟩
      else if k = high then
        ⟨((amplitudes low).real - (amplitudes high).real) * invSqrt2,
         ((amplitudes low).imag - (amplitudes high).imag) * invSqrt2⟩
      else st.1 k,
     insert high (insert low st.2))

/-- Loop body of the `ControlledNot` branch of `applyGate`: swap the pair
when the control bit is set. -/
def cnotStep (controlMask targetMask : ℕ) (newAmps : ℕ → Amp) (i : ℕ) : ℕ → Amp :=
  if i &&& controlMask ≠ 0 then
    let target := i ^^^ targetMask
    if i < target then swapIdx newAmps i target else newAmps
  else newAmps

/-- Embedding of `QuantumSimulator.applyGate`.  `n` is the qubit count, so
`states = 2 ^ n`; the branches mirror the `if / else if` chain on
`gate.type` of the source, and each `for` loop over `0 ≤ i < states`
becomes a left fold of the loop body over `List.range states`. -/
noncomputable def applyGate (n : ℕ) (amplitudes : ℕ → Amp) (gate : Gate) : ℕ → Amp :=
  let states := 2 ^ n
  if gate.type = GateType.X then
    (List.range states).foldl (xStep gate.qubit) amplitudes
  else if gate.type = GateType.H then
    let invSqrt2 := 1 / Real.sqrt 2
    let mask := 1 <<< gate.qubit
    ((List.range states).foldl (hStep amplitudes invSqrt2 mask)
      (amplitudes, (∅ : Finset ℕ))).1
  else if gate.type = GateType.CNOT then
    match gate.control with
    | none => amplitudes
    | some control =>
      let controlMask := 1 <<< control
      let targetMask := 1 <<< gate.qubit
      (List.range states).foldl (cnotStep controlMask targetMask) amplitudes
  else amplitudes

/-- The initial state vector of `simulate`: amplitude 1 on basis state 0. -/
noncomputable def initialAmps : ℕ → Amp :=
  fun i => if i = 0 then ⟨1, 0⟩ else ⟨0, 0⟩

/-- The gate-application part of `simulate`: the gate list is sorted by
time (`[...gates].sort((a, b) => a.time - b.time)`, a stable sort, modelled
by the stable `List.insertionSort` on `time ≤ time`) and folded over the
initial state. -/
noncomputable def simulateAmps (n : ℕ) (gates : List Gate) : ℕ → Amp :=
  let sortedGates := List.insertionSort (fun a b => a.time ≤ b.time) gates
  sortedGates.foldl (applyGate n) initialAmps

/-- The ideal probabilities of `simulate`:
`idealAmplitudes.map(amp => amp.real ** 2 + amp.imag ** 2)`. -/
noncomputable def idealProbs (n : ℕ) (gates : List Gate) : ℕ → ℝ :=
  fun i => (simulateAmps n gates i).real ^ 2 + (simulateAmps n gates i).imag ^ 2

/-- The bitstring label of `toDict`: `i.toString(2).padStart(n, '0')`. -/
def bitString (n i : ℕ) : String :=
  let s := Nat.toDigits 2 i
  ⟨List.replicate (n - s.length) '0' ++ s⟩

/-- Embedding of `QuantumSimulator.toDict` as an association list in index
order (the source builds a record keyed by the bitstring of each index). -/
noncomputable def toDict (n : ℕ) (probs : ℕ → ℝ) : List (String × ℝ) :=
  (List.range (2 ^ n)).map fun i => (bitString n i, probs i)

/-- Total probability carried by the first `states` entries of an
amplitude array: `Σ (real ** 2 + imag ** 2)`. -/
noncomputable def sumProbs (states : ℕ) (amps : ℕ → Amp) : ℝ :=
  ∑ i ∈ Finset.range states, ((amps i).real ^ 2 + (amps i).imag ^ 2)

/-- The cumulative depth-based error of `applyNoiseModel`:
`totalError = 1 - Math.pow(1 - p, Math.max(1, gateCount))`. -/
noncomputable def noiseTotalError (p : ℝ) (gateCount : ℕ) : ℝ :=
  1 - (1 - p) ^ max 1 gateCount

/-- Loop body of the `BIT_FLIP` branch of `applyNoiseModel`: the source
mutates `result` in place (`result[i] = result[i] * (1 - flipAmount) +
result[flipped] * flipAmount`), so the right-hand side reads the partially
updated vector. -/
noncomputable def bfStep (states : ℕ) (flipAmount : ℝ) (result : ℕ → ℝ) (i : ℕ) : ℕ → ℝ :=
  let flipped := (states - 1) - i
  fun k =>
    if k = i then result i * (1 - flipAmount) + result flipped * flipAmount
    else result k

/-- The perturbation stage of `applyNoiseModel` (everything before the
final renormalization). -/
noncomputable def perturb (states : ℕ) (ideal : ℕ → ℝ) (noise : NoiseConfig)
    (gateCount : ℕ) : ℕ → ℝ :=
  let totalError := noiseTotalError noise.probability gateCount
  if noise.type = NoiseType.DEPOLARIZING then
    let uniform := 1 / (states : ℝ)
    fun i => ideal i * (1 - totalError) + uniform * totalError
  else if noise.type = NoiseType.BIT_FLIP then
    let flipAmount := totalError * 0.4
    (List.range states).foldl (bfStep states flipAmount) ideal
  else if noise.type = NoiseType.AMPLITUDE_DAMPING then
    let decay := totalError * 0.8
    fun i => if i = 0 then ideal 0 + (1 - ideal 0) * decay else ideal i * (1 - decay)
  else
    fun i => ideal i * (1 - totalError) + (1 / (states : ℝ)) * totalError

/-- Embedding of `QuantumSimulator.applyNoiseModel`: perturb, then divide
every entry by the vector's sum, with the JavaScript `sum || 1` guard
(divisor 1 when the sum is zero). -/
noncomputable def applyNoiseModel (states : ℕ) (ideal : ℕ → ℝ) (noise : NoiseConfig)
    (gateCount : ℕ) : ℕ → ℝ :=
  let result := perturb states ideal noise gateCount
  let sum := ∑ i ∈ Finset.range states, result i
  fun i => result i / (if sum = 0 then 1 else sum)

/-- Embedding of `QuantumSimulator.calculateFidelity`:
`min(1, (Σ sqrt(ideal[i] * noisy[i]))^2)`. -/
noncomputable def calculateFidelity (len : ℕ) (ideal noisy : ℕ → ℝ) : ℝ :=
  let overlap := ∑ i ∈ Finset.range len, Real.sqrt (ideal i * noisy i)
  min 1 (overlap * overlap)

/-! ### Bit-manipulation facts about `2 ^ q` masks -/

lemma and_two_pow_eq_zero_iff (i q : ℕ) : i &&& 2 ^ q = 0 ↔ i.testBit q = false := by
  rw [Nat.and_two_pow]
  rcases h : i.testBit q <;> simp [h]

lemma testBit_xor_two_pow (i q : ℕ) : (i ^^^ 2 ^ q).testBit q = !i.testBit q := by
  simp [Nat.testBit_xor, Nat.testBit_two_pow_self]

lemma testBit_xor_two_pow_ne (i q j : ℕ) (h : j ≠ q) :
    (i ^^^ 2 ^ q).testBit j = i.testBit j := by
  simp [Nat.testBit_xor, Nat.testBit_two_pow_of_ne fun hq => h hq.symm]

lemma xor_two_pow_xor (i q : ℕ) : (i ^^^ 2 ^ q) ^^^ 2 ^ q = i :=
  Nat.xor_cancel_right _ _

lemma xor_two_pow_ne (i q : ℕ) : i ^^^ 2 ^ q ≠ i := by
  intro h
  have h' := congrArg (fun x => x.testBit q) h
  simp only [testBit_xor_two_pow] at h'
  rcases hb : i.testBit q <;> simp [hb] at h'

lemma lt_xor_two_pow_of_testBit_false {i q : ℕ} (h : i.testBit q = false) :
    i < i ^^^ 2 ^ q :=
  Nat.lt_of_testBit q h (by simp [testBit_xor_two_pow, h])
    fun j hj => (testBit_xor_two_pow_ne i q j (by omega)).symm

lemma xor_two_pow_lt_of_testBit_true {i q : ℕ} (h : i.testBit q = true) :
    i ^^^ 2 ^ q < i :=
  Nat.lt_of_testBit q (by simp [testBit_xor_two_pow, h]) h
    fun j hj => testBit_xor_two_pow_ne i q j (by omega)

lemma lt_xor_two_pow_iff (i q : ℕ) : i < i ^^^ 2 ^ q ↔ i.testBit q = false := by
  constructor
  · intro h
    by_contra hb
    have hb' : i.testBit q = true := by
      rcases h' : i.testBit q
      · exact absurd h' hb
      · rfl
    have := xor_two_pow_lt_of_testBit_true hb'
    omega
  · exact lt_xor_two_pow_of_testBit_false

lemma xor_two_pow_lt_states {n q i : ℕ} (hq : q < n) (hi : i < 2 ^ n) :
    i ^^^ 2 ^ q < 2 ^ n :=
  Nat.xor_lt_two_pow hi (Nat.pow_lt_pow_right (by norm_num) hq)

/-! ### Characterizations of the in-place loops as pointwise maps -/

lemma foldl_id_of {α β : Type _} (f : α → β → α) (a : α) (l : List β)
    (h : ∀ acc i, i ∈ l → f acc i = acc) : l.foldl f a = a := by
  induction l generalizing a with
  | nil => rfl
  | cons x t ih =>
    rw [List.foldl_cons, h a x (by simp)]
    exact ih a fun acc i hi => h acc i (by simp [hi])

/-- The `PauliX` swap loop, after running over indices `0 ≤ i < m`,
replaces every entry whose pair has been visited by its partner. -/
lemma xFold_eq (q : ℕ) (A : ℕ → Amp) (m : ℕ) :
    (List.range m).foldl (xStep q) A
    = fun k => if k < m ∨ k ^^^ 2 ^ q < m then A (k ^^^ 2 ^ q) else A k := by
  induction m with
  | zero => funext k; simp
  | succ m ih =>
    rw [List.range_succ, List.foldl_append, ih]
    simp only [List.foldl_cons, List.foldl_nil, xStep, Nat.one_shiftLeft]
    rcases hb : m.testBit q with _ | _
    · -- bit clear: the pair {m, m ^^^ 2 ^ q} is swapped at this step
      have hlt : m < m ^^^ 2 ^ q := lt_xor_two_pow_of_testBit_false hb
      rw [if_pos hlt]
      funext k
      simp only [swapIdx]
      rcases eq_or_ne k m with rfl | hkm
      · have h2 : ¬(k ^^^ 2 ^ q < k ∨ (k ^^^ 2 ^ q) ^^^ 2 ^ q < k) := by
          rw [xor_two_pow_xor]; omega
        rw [if_pos rfl, if_neg h2, if_pos (Or.inl (by omega : k < k + 1))]
      · rcases eq_or_ne k (m ^^^ 2 ^ q) with rfl | hkt
        · rw [if_neg hkm, if_pos rfl, if_neg (by omega : ¬(m < m ∨ m ^^^ 2 ^ q < m)),
            if_pos (Or.inr (by rw [xor_two_pow_xor]; omega)), xor_two_pow_xor]
        · have hxk : k ^^^ 2 ^ q ≠ m := fun h => hkt (by rw [← h, xor_two_pow_xor])
          have hcond : (k < m ∨ k ^^^ 2 ^ q < m) ↔ (k < m + 1 ∨ k ^^^ 2 ^ q < m + 1) := by
            omega
          rw [if_neg hkm, if_neg hkt]
          by_cases hc : k < m ∨ k ^^^ 2 ^ q < m
          · rw [if_pos hc, if_pos (hcond.mp hc)]
          · rw [if_neg hc, if_neg fun h => hc (hcond.mpr h)]
    · -- bit set: the partner is smaller, so the guard fails and nothing changes
      have hlt : m ^^^ 2 ^ q < m := xor_two_pow_lt_of_testBit_true hb
      rw [if_neg (by omega)]
      funext k
      have hcond : (k < m ∨ k ^^^ 2 ^ q < m) ↔ (k < m + 1 ∨ k ^^^ 2 ^ q < m + 1) := by
        constructor
        · omega
        · intro h
          rcases eq_or_ne k m with rfl | hkm
          · exact Or.inr hlt
          · rcases eq_or_ne (k ^^^ 2 ^ q) m with he | hne
            · have : k = m ^^^ 2 ^ q := by rw [← he, xor_two_pow_xor]
              omega
            · omega
      by_cases hc : k < m ∨ k ^^^ 2 ^ q < m
      · rw [if_pos hc, if_pos (hcond.mp hc)]
      · rw [if_neg hc, if_neg (fun h => hc (hcond.mpr h))]

lemma mem_xorImage_iff (a m q : ℕ) :
    a ∈ (Finset.range m).image (· ^^^ 2 ^ q) ↔ a ^^^ 2 ^ q < m := by
  simp only [Finset.mem_image, Finset.mem_range]
  constructor
  · rintro ⟨b, hb, rfl⟩
    rw [xor_two_pow_xor]
    exact hb
  · intro h
    exact ⟨a ^^^ 2 ^ q, h, xor_two_pow_xor a q⟩

/-- The `ControlledNot` swap loop, for distinct control and target bits,
replaces every visited entry whose control bit is set by its partner. -/
lemma cnotFold_eq (c q : ℕ) (hcq : c ≠ q) (A : ℕ → Amp) (m : ℕ) :
    (List.range m).foldl (cnotStep (1 <<< c) (1 <<< q)) A
    = fun k =>
        if k.testBit c = true ∧ (k < m ∨ k ^^^ 2 ^ q < m) then A (k ^^^ 2 ^ q) else A k := by
  induction m with
  | zero => funext k; simp
  | succ m ih =>
    rw [List.range_succ, List.foldl_append, ih]
    simp only [List.foldl_cons, List.foldl_nil, cnotStep, Nat.one_shiftLeft]
    have hpres : ∀ a : ℕ, (a ^^^ 2 ^ q).testBit c = a.testBit c := fun a =>
      testBit_xor_two_pow_ne a q c hcq
    rcases hgc : m.testBit c with _ | _
    · -- control bit clear at m: no swap happens at this step
      rw [if_neg (by simp [and_two_pow_eq_zero_iff, hgc])]
      funext k
      by_cases hc : k.testBit c = true ∧ (k < m ∨ k ^^^ 2 ^ q < m)
      · rw [if_pos hc, if_pos ⟨hc.1, by omega⟩]
      · rw [if_neg hc]
        have : ¬(k.testBit c = true ∧ (k < m + 1 ∨ k ^^^ 2 ^ q < m + 1)) := by
          rintro ⟨hbit, hlt⟩
          apply hc
          refine ⟨hbit, ?_⟩
          rcases eq_or_ne k m with rfl | hkm
          · rw [hbit] at hgc; exact absurd hgc (by simp)
          · rcases eq_or_ne (k ^^^ 2 ^ q) m with he | hne
            · have hk : k = m ^^^ 2 ^ q := by rw [← he, xor_two_pow_xor]
              have : (m ^^^ 2 ^ q).testBit c = true := hk ▸ hbit
              rw [hpres m] at this
              rw [this] at hgc
              exact absurd hgc (by simp)
            · omega
        rw [if_neg this]
    · -- control bit set at m
      rw [if_pos (by simp [Ne, and_two_pow_eq_zero_iff, hgc])]
      rcases hgq : m.testBit q with _ | _
      · -- target bit clear: the pair {m, m ^^^ 2 ^ q} is swapped
        have hlt : m < m ^^^ 2 ^ q := lt_xor_two_pow_of_testBit_false hgq
        rw [if_pos hlt]
        funext k
        simp only [swapIdx]
        rcases eq_or_ne k m with rfl | hkm
        · have h2 : ¬((k ^^^ 2 ^ q).testBit c = true ∧
              (k ^^^ 2 ^ q < k ∨ (k ^^^ 2 ^ q) ^^^ 2 ^ q < k)) := by
            rw [xor_two_pow_xor]
            rintro ⟨_, h⟩
            omega
          rw [if_pos rfl, if_neg h2, if_pos ⟨hgc, Or.inl (by omega)⟩]
        · rcases eq_or_ne k (m ^^^ 2 ^ q) with rfl | hkt
          · have h1 : ¬(m.testBit c = true ∧ (m < m ∨ m ^^^ 2 ^ q < m)) := by
              rintro ⟨_, h⟩
              omega
            rw [if_neg hkm, if_pos rfl, if_neg h1,
              if_pos ⟨by rw [hpres]; exact hgc, Or.inr (by rw [xor_two_pow_xor]; omega)⟩,
              xor_two_pow_xor]
          · have hxk : k ^^^ 2 ^ q ≠ m := fun h => hkt (by rw [← h, xor_two_pow_xor])
            rw [if_neg hkm, if_neg hkt]
            by_cases hcnd : k.testBit c = true ∧ (k < m ∨ k ^^^ 2 ^ q < m)
            · rw [if_pos hcnd, if_pos ⟨hcnd.1, by omega⟩]
            · rw [if_neg hcnd, if_neg ?_]
              rintro ⟨hbit, hlt'⟩
              exact hcnd ⟨hbit, by omega⟩
      · -- target bit set: the partner is smaller and the guard fails
        have hlt : m ^^^ 2 ^ q < m := xor_two_pow_lt_of_testBit_true hgq
        rw [if_neg (by omega)]
        funext k
        by_cases hcnd : k.testBit c = true ∧ (k < m ∨ k ^^^ 2 ^ q < m)
        · rw [if_pos hcnd, if_pos ⟨hcnd.1, by omega⟩]
        · rw [if_neg hcnd, if_neg ?_]
          rintro ⟨hbit, hlt'⟩
          apply hcnd
          refine ⟨hbit, ?_⟩
          rcases eq_or_ne k m with rfl | hkm
          · exact Or.inr hlt
          · rcases eq_or_ne (k ^^^ 2 ^ q) m with he | hne
            · have hk : k = m ^^^ 2 ^ q := by rw [← he, xor_two_pow_xor]
              omega
            · omega

/-- A `ControlledNot` whose control equals its target never fires its swap:
for every index with the control bit set, xoring the target mask clears
that same bit, so the partner is smaller. -/
lemma cnotFold_self_eq (q : ℕ) (A : ℕ → Amp) (m : ℕ) :
    (List.range m).foldl (cnotStep (1 <<< q) (1 <<< q)) A = A := by
  apply foldl_id_of
  intro acc i _
  simp only [cnotStep, Nat.one_shiftLeft]
  by_cases hb : i &&& 2 ^ q ≠ 0
  · rw [if_pos hb]
    have hbit : i.testBit q = true := by
      rcases h : i.testBit q
      · exact absurd ((and_two_pow_eq_zero_iff i q).mpr h) hb
      · rfl
    have := xor_two_pow_lt_of_testBit_true hbit
    rw [if_neg (by omega)]
  · rw [if_neg hb]

/-- A `ControlledNot` whose control bit lies outside the state register is
a no-op: no index below `2 ^ n` has that bit set. -/
lemma cnotFold_highControl_eq (c q n : ℕ) (hc : n ≤ c) (A : ℕ → Amp) :
    (List.range (2 ^ n)).foldl (cnotStep (1 <<< c) (1 <<< q)) A = A := by
  apply foldl_id_of
  intro acc i hi
  rw [List.mem_range] at hi
  have hbit : i.testBit c = false :=
    Nat.testBit_lt_two_pow (lt_of_lt_of_le hi (Nat.pow_le_pow_right (by norm_num) hc))
  simp only [cnotStep, Nat.one_shiftLeft]
  rw [if_neg (by simp [and_two_pow_eq_zero_iff, hbit])]

/-- Pointwise description of one Hadamard pass: the member of each pair
with the target bit clear (`low`) receives `(low + high) * invSqrt2`, the
member with the bit set receives `(low - high) * invSqrt2`, both computed
from the pre-update array. -/
noncomputable def hPoint (A : ℕ → Amp) (invSqrt2 : ℝ) (q k : ℕ) : Amp :=
  if k.testBit q = true then
    ⟨((A (k ^^^ 2 ^ q)).real - (A k).real) * invSqrt2,
     ((A (k ^^^ 2 ^ q)).imag - (A k).imag) * invSqrt2⟩
  else
    ⟨((A k).real + (A (k ^^^ 2 ^ q)).real) * invSqrt2,
     ((A k).imag + (A (k ^^^ 2 ^ q)).imag) * invSqrt2⟩

/-- The Hadamard loop with its `processed` set: after the indices
`0 ≤ i < m`, every index of a visited pair holds its `hPoint` value, and
`processed` is exactly the set of members of visited pairs. -/
lemma hFold_eq (q : ℕ) (A : ℕ → Amp) (s : ℝ) (m : ℕ) :
    (List.range m).foldl (hStep A s (1 <<< q)) (A, (∅ : Finset ℕ))
    = (fun k => if k < m ∨ k ^^^ 2 ^ q < m then hPoint A s q k else A k,
       Finset.range m ∪ (Finset.range m).image (· ^^^ 2 ^ q)) := by
  induction m with
  | zero =>
    refine Prod.ext ?_ ?_
    · funext k
      simp
    · simp
  | succ m ih =>
    rw [List.range_succ, List.foldl_append, ih]
    simp only [List.foldl_cons, List.foldl_nil, hStep, Nat.one_shiftLeft]
    have hmem : m ∈ Finset.range m ∪ (Finset.range m).image (· ^^^ 2 ^ q)
        ↔ m ^^^ 2 ^ q < m := by
      rw [Finset.mem_union, mem_xorImage_iff, Finset.mem_range]
      omega
    rcases hb : m.testBit q with _ | _
    · -- bit clear: the pair {m, m ^^^ 2 ^ q} is written at this step
      have hlt : m < m ^^^ 2 ^ q := lt_xor_two_pow_of_testBit_false hb
      rw [if_neg (by rw [hmem]; omega)]
      have hand : m &&& 2 ^ q = 0 := (and_two_pow_eq_zero_iff m q).mpr hb
      simp only [hand, ne_eq, not_true_eq_false, if_false, ite_false, not_false_iff]
      refine Prod.ext ?_ ?_
      · funext k
        simp only []
        rcases eq_or_ne k m with rfl | hkm
        · rw [if_pos rfl, if_pos (Or.inl (by omega : k < k + 1)), hPoint, if_neg (by simp [hb])]
        · rcases eq_or_ne k (m ^^^ 2 ^ q) with rfl | hkt
          · have hbit : (m ^^^ 2 ^ q).testBit q = true := by
              rw [testBit_xor_two_pow, hb]
              rfl
            rw [if_neg hkm, if_pos rfl,
              if_pos (Or.inr (by rw [xor_two_pow_xor]; omega)), hPoint, if_pos hbit,
              xor_two_pow_xor]
          · have hxk : k ^^^ 2 ^ q ≠ m := fun h => hkt (by rw [← h, xor_two_pow_xor])
            rw [if_neg hkm, if_neg hkt]
            by_cases hc : k < m ∨ k ^^^ 2 ^ q < m
            · rw [if_pos hc, if_pos (by omega)]
            · rw [if_neg hc, if_neg (by omega)]
      · ext a
        simp only [Finset.mem_insert, Finset.mem_union, Finset.mem_range, mem_xorImage_iff]
        constructor
        · rintro (rfl | rfl | h | h)
          · rw [xor_two_pow_xor]
            omega
          · omega
          · omega
          · omega
        · rintro (h | h)
          · omega
          · rcases eq_or_ne (a ^^^ 2 ^ q) m with he | hne
            · have : a = m ^^^ 2 ^ q := by rw [← he, xor_two_pow_xor]
              omega
            · omega
    · -- bit set: the pair was already processed, nothing changes
      have hlt : m ^^^ 2 ^ q < m := xor_two_pow_lt_of_testBit_true hb
      rw [if_pos (hmem.mpr hlt)]
      refine Prod.ext ?_ ?_
      · funext k
        simp only []
        by_cases hc : k < m ∨ k ^^^ 2 ^ q < m
        · rw [if_pos hc, if_pos (by omega)]
        · rw [if_neg hc, if_neg ?_]
          rintro (h | h)
          · rcases eq_or_ne k m with rfl | hkm
            · exact hc (Or.inr hlt)
            · exact hc (Or.inl (by omega))
          · rcases eq_or_ne (k ^^^ 2 ^ q) m with he | hne
            · have : k = m ^^^ 2 ^ q := by rw [← he, xor_two_pow_xor]
              exact hc (Or.inl (by omega))
            · exact hc (Or.inr (by omega))
      · ext a
        simp only [Finset.mem_union, Finset.mem_range, mem_xorImage_iff]
        constructor
        · rintro (h | h)
          · omega
          · omega
        · rintro (h | h)
          · rcases eq_or_ne a m with rfl | ham
            · exact Or.inr (by omega)
            · exact Or.inl (by omega)
          · rcases eq_or_ne (a ^^^ 2 ^ q) m with he | hne
            · have : a = m ^^^ 2 ^ q := by rw [← he, xor_two_pow_xor]
              exact Or.inl (by omega)
            · exact Or.inr (by omega)

/-- Pointwise description of the sequential `BIT_FLIP` pass: indices in
the lower half (processed before their partner) blend with the still-ideal
partner; indices in the upper half blend with the partner value that was
already overwritten earlier in the same pass. -/
noncomputable def bfPoint (ideal : ℕ → ℝ) (states : ℕ) (f : ℝ) (k : ℕ) : ℝ :=
  if k ≤ states - 1 - k then
    ideal k * (1 - f) + ideal (states - 1 - k) * f
  else
    ideal k * (1 - f) + (ideal (states - 1 - k) * (1 - f) + ideal k * f) * f

lemma bfFold_eq (states : ℕ) (f : ℝ) (ideal : ℕ → ℝ) (m : ℕ) (hm : m ≤ states) :
    (List.range m).foldl (bfStep states f) ideal
    = fun k => if k < m then bfPoint ideal states f k else ideal k := by
  induction m with
  | zero => funext k; simp
  | succ m ih =>
    rw [List.range_succ, List.foldl_append, ih (by omega)]
    simp only [List.foldl_cons, List.foldl_nil, bfStep]
    funext k
    rcases eq_or_ne k m with rfl | hkm
    · rw [if_pos rfl, if_pos (by omega : k < k + 1), if_neg (by omega : ¬k < k)]
      by_cases hle : k ≤ states - 1 - k
      · rw [if_neg (by omega : ¬states - 1 - k < k), bfPoint, if_pos hle]
      · have hsub : states - 1 - (states - 1 - k) = k := by omega
        rw [if_pos (by omega : states - 1 - k < k)]
        simp only [bfPoint, hsub]
        rw [if_pos (by omega : states - 1 - k ≤ k), if_neg hle]
    · rw [if_neg hkm]
      by_cases hc : k < m
      · rw [if_pos hc, if_pos (by omega)]
      · rw [if_neg hc, if_neg (by omega)]

/-- Summing over all basis indices equals summing each xor-pair once,
indexed by the pair member whose target bit is clear. -/
lemma sum_pair_split (n q : ℕ) (hq : q < n) (F : ℕ → ℝ) :
    ∑ k ∈ Finset.range (2 ^ n), F k
      = ∑ k ∈ (Finset.range (2 ^ n)).filter (fun k => k.testBit q = false),
          (F k + F (k ^^^ 2 ^ q)) := by
  rw [Finset.sum_add_distrib,
    ← Finset.sum_filter_add_sum_filter_not (Finset.range (2 ^ n))
      (fun k => k.testBit q = false) F]
  congr 1
  refine Finset.sum_nbij' (fun k => k ^^^ 2 ^ q) (fun k => k ^^^ 2 ^ q) ?_ ?_ ?_ ?_ ?_
  · intro a ha
    rw [Finset.mem_filter, Finset.mem_range] at ha ⊢
    have hbit : a.testBit q = true := by
      rcases h : a.testBit q
      · exact absurd h ha.2
      · rfl
    refine ⟨xor_two_pow_lt_states hq ha.1, ?_⟩
    rw [testBit_xor_two_pow, hbit]
    rfl
  · intro a ha
    rw [Finset.mem_filter, Finset.mem_range] at ha ⊢
    refine ⟨xor_two_pow_lt_states hq ha.1, ?_⟩
    rw [testBit_xor_two_pow, ha.2]
    simp
  · intro a _
    exact xor_two_pow_xor a q
  · intro a _
    exact xor_two_pow_xor a q
  · intro a _
    rw [xor_two_pow_xor]

/-! ### Branch equations for `applyGate` -/

lemma applyGate_X_eq (n : ℕ) (A : ℕ → Amp) (g : Gate) (hg : g.type = GateType.X) :
    applyGate n A g
      = fun k =>
          if k < 2 ^ n ∨ k ^^^ 2 ^ g.qubit < 2 ^ n then A (k ^^^ 2 ^ g.qubit) else A k := by
  simp only [applyGate]
  rw [if_pos hg, xFold_eq]

lemma applyGate_H_eq (n : ℕ) (A : ℕ → Amp) (g : Gate) (hg : g.type = GateType.H) :
    applyGate n A g
      = fun k =>
          if k < 2 ^ n ∨ k ^^^ 2 ^ g.qubit < 2 ^ n then
            hPoint A (1 / Real.sqrt 2) g.qubit k
          else A k := by
  simp only [applyGate]
  rw [if_neg (by simp [hg]), if_pos hg, hFold_eq]

lemma applyGate_CNOT_eq (n : ℕ) (A : ℕ → Amp) (g : Gate) (c : ℕ)
    (hg : g.type = GateType.CNOT) (hc : g.control = some c) (hcq : c ≠ g.qubit) :
    applyGate n A g
      = fun k =>
          if k.testBit c = true ∧ (k < 2 ^ n ∨ k ^^^ 2 ^ g.qubit < 2 ^ n) then
            A (k ^^^ 2 ^ g.qubit)
          else A k := by
  simp only [applyGate]
  rw [if_neg (by simp [hg]), if_neg (by simp [hg]), if_pos hg, hc]
  exact cnotFold_eq c g.qubit hcq A (2 ^ n)

lemma applyGate_CNOT_none (n : ℕ) (A : ℕ → Amp) (g : Gate)
    (hg : g.type = GateType.CNOT) (hc : g.control = none) :
    applyGate n A g = A := by
  simp only [applyGate]
  rw [if_neg (by simp [hg]), if_neg (by simp [hg]), if_pos hg, hc]

lemma applyGate_CNOT_selfControl (n : ℕ) (A : ℕ → Amp) (g : Gate)
    (hg : g.type = GateType.CNOT) (hc : g.control = some g.qubit) :
    applyGate n A g = A := by
  simp only [applyGate]
  rw [if_neg (by simp [hg]), if_neg (by simp [hg]), if_pos hg, hc]
  exact cnotFold_self_eq g.qubit A (2 ^ n)

lemma applyGate_CNOT_highControl (n : ℕ) (A : ℕ → Amp) (g : Gate) (c : ℕ)
    (hg : g.type = GateType.CNOT) (hc : g.control = some c) (hcn : n ≤ c) :
    applyGate n A g = A := by
  simp only [applyGate]
  rw [if_neg (by simp [hg]), if_neg (by simp [hg]), if_pos hg, hc]
  exact cnotFold_highControl_eq c g.qubit n hcn A

lemma applyGate_other (n : ℕ) (A : ℕ → Amp) (g : Gate)
    (hg : g.type = GateType.Y ∨ g.type = GateType.Z ∨ g.type = GateType.I) :
    applyGate n A g = A := by
  simp only [applyGate]
  rcases hg with hg | hg | hg <;>
    rw [if_neg (by simp [hg]), if_neg (by simp [hg]), if_neg (by simp [hg])]

lemma sum_xor_reindex (n q : ℕ) (hq : q < n) (F : ℕ → ℝ) :
    ∑ k ∈ Finset.range (2 ^ n), F (k ^^^ 2 ^ q) = ∑ k ∈ Finset.range (2 ^ n), F k := by
  refine Finset.sum_nbij' (fun k => k ^^^ 2 ^ q) (fun k => k ^^^ 2 ^ q) ?_ ?_ ?_ ?_ ?_
  · intro a ha
    rw [Finset.mem_range] at ha ⊢
    exact xor_two_pow_lt_states hq ha
  · intro a ha
    rw [Finset.mem_range] at ha ⊢
    exact xor_two_pow_lt_states hq ha
  · intro a _
    exact xor_two_pow_xor a q
  · intro a _
    exact xor_two_pow_xor a q
  · intro a _
    rfl

lemma sum_xor_reindex_filter (n q c : ℕ) (hq : q < n) (hcq : c ≠ q) (F : ℕ → ℝ) :
    ∑ k ∈ (Finset.range (2 ^ n)).filter (fun k => ¬(k.testBit c = false)), F (k ^^^ 2 ^ q)
      = ∑ k ∈ (Finset.range (2 ^ n)).filter (fun k => ¬(k.testBit c = false)), F k := by
  refine Finset.sum_nbij' (fun k => k ^^^ 2 ^ q) (fun k => k ^^^ 2 ^ q) ?_ ?_ ?_ ?_ ?_
  · intro a ha
    rw [Finset.mem_filter, Finset.mem_range] at ha ⊢
    exact ⟨xor_two_pow_lt_states hq ha.1, by rw [testBit_xor_two_pow_ne a q c hcq]; exact ha.2⟩
  · intro a ha
    rw [Finset.mem_filter, Finset.mem_range] at ha ⊢
    exact ⟨xor_two_pow_lt_states hq ha.1, by rw [testBit_xor_two_pow_ne a q c hcq]; exact ha.2⟩
  · intro a _
    exact xor_two_pow_xor a q
  · intro a _
    exact xor_two_pow_xor a q
  · intro a _
    rfl

/-- Every single gate update preserves the total probability
`Σ (real ^ 2 + imag ^ 2)`, provided the target qubit is in range. -/
lemma sumProbs_applyGate (n : ℕ) (A : ℕ → Amp) (g : Gate) (hq : g.qubit < n) :
    sumProbs (2 ^ n) (applyGate n A g) = sumProbs (2 ^ n) A := by
  rcases hg : g.type with _ | _ | _ | _ | _ | _
  · -- Hadamard
    rw [sumProbs, sumProbs, applyGate_H_eq n A g hg]
    have h1 : ∀ i ∈ Finset.range (2 ^ n),
        (((fun k => if k < 2 ^ n ∨ k ^^^ 2 ^ g.qubit < 2 ^ n then
            hPoint A (1 / Real.sqrt 2) g.qubit k else A k) i).real ^ 2 +
         ((fun k => if k < 2 ^ n ∨ k ^^^ 2 ^ g.qubit < 2 ^ n then
            hPoint A (1 / Real.sqrt 2) g.qubit k else A k) i).imag ^ 2)
        = ((hPoint A (1 / Real.sqrt 2) g.qubit i).real ^ 2 +
           (hPoint A (1 / Real.sqrt 2) g.qubit i).imag ^ 2) := by
      intro i hi
      rw [Finset.mem_range] at hi
      simp only [if_pos (Or.inl hi)]
    rw [Finset.sum_congr rfl h1,
      sum_pair_split n g.qubit hq
        (fun i => (hPoint A (1 / Real.sqrt 2) g.qubit i).real ^ 2 +
          (hPoint A (1 / Real.sqrt 2) g.qubit i).imag ^ 2),
      sum_pair_split n g.qubit hq
        (fun i => (A i).real ^ 2 + (A i).imag ^ 2)]
    apply Finset.sum_congr rfl
    intro k hk
    rw [Finset.mem_filter] at hk
    have hbit : k.testBit g.qubit = false := hk.2
    have hbit' : (k ^^^ 2 ^ g.qubit).testBit g.qubit = true := by
      rw [testBit_xor_two_pow, hbit]
      rfl
    have hs : (1 / Real.sqrt 2) ^ 2 = 1 / 2 := by
      rw [div_pow, one_pow, Real.sq_sqrt (by norm_num : (0:ℝ) ≤ 2)]
    rw [hPoint, if_neg (by rw [hbit]; exact fun h => nomatch h), hPoint, if_pos hbit',
      xor_two_pow_xor]
    simp only [mul_pow, hs]
    ring
  · -- PauliX
    rw [sumProbs, sumProbs, applyGate_X_eq n A g hg]
    have h1 : ∀ i ∈ Finset.range (2 ^ n),
        (((fun k => if k < 2 ^ n ∨ k ^^^ 2 ^ g.qubit < 2 ^ n then
            A (k ^^^ 2 ^ g.qubit) else A k) i).real ^ 2 +
         ((fun k => if k < 2 ^ n ∨ k ^^^ 2 ^ g.qubit < 2 ^ n then
            A (k ^^^ 2 ^ g.qubit) else A k) i).imag ^ 2)
        = ((A (i ^^^ 2 ^ g.qubit)).real ^ 2 + (A (i ^^^ 2 ^ g.qubit)).imag ^ 2) := by
      intro i hi
      rw [Finset.mem_range] at hi
      simp only [if_pos (Or.inl hi)]
    rw [Finset.sum_congr rfl h1]
    exact sum_xor_reindex n g.qubit hq fun k => (A k).real ^ 2 + (A k).imag ^ 2
  · -- PauliY: not implemented, no-op
    rw [applyGate_other n A g (Or.inl hg)]
  · -- PauliZ: not implemented, no-op
    rw [applyGate_other n A g (Or.inr (Or.inl hg))]
  · -- ControlledNot
    rcases hc : g.control with _ | c
    · rw [applyGate_CNOT_none n A g hg hc]
    · by_cases hcq : c = g.qubit
      · rw [hcq] at hc
        rw [applyGate_CNOT_selfControl n A g hg hc]
      · by_cases hcn : n ≤ c
        · rw [applyGate_CNOT_highControl n A g c hg hc hcn]
        · rw [sumProbs, sumProbs, applyGate_CNOT_eq n A g c hg hc hcq]
          have h1 : ∀ i ∈ Finset.range (2 ^ n),
              (((fun k => if k.testBit c = true ∧ (k < 2 ^ n ∨ k ^^^ 2 ^ g.qubit < 2 ^ n)
                  then A (k ^^^ 2 ^ g.qubit) else A k) i).real ^ 2 +
               ((fun k => if k.testBit c = true ∧ (k < 2 ^ n ∨ k ^^^ 2 ^ g.qubit < 2 ^ n)
                  then A (k ^^^ 2 ^ g.qubit) else A k) i).imag ^ 2)
              = (if i.testBit c = true
                  then (A (i ^^^ 2 ^ g.qubit)).real ^ 2 + (A (i ^^^ 2 ^ g.qubit)).imag ^ 2
                  else (A i).real ^ 2 + (A i).imag ^ 2) := by
            intro i hi
            rw [Finset.mem_range] at hi
            by_cases hb : i.testBit c = true
            · simp only [if_pos (And.intro hb (Or.inl hi)), if_pos hb]
            · have hni : ¬(i.testBit c = true ∧ (i < 2 ^ n ∨ i ^^^ 2 ^ g.qubit < 2 ^ n)) := by
                rintro ⟨h1, _⟩
                exact hb h1
              simp only [if_neg hni, if_neg hb]
          rw [Finset.sum_congr rfl h1,
            ← Finset.sum_filter_add_sum_filter_not (Finset.range (2 ^ n))
              (fun k => k.testBit c = false)
              (fun i => if i.testBit c = true
                then (A (i ^^^ 2 ^ g.qubit)).real ^ 2 + (A (i ^^^ 2 ^ g.qubit)).imag ^ 2
                else (A i).real ^ 2 + (A i).imag ^ 2),
            ← Finset.sum_filter_add_sum_filter_not (Finset.range (2 ^ n))
              (fun k => k.testBit c = false)
              (fun i => (A i).real ^ 2 + (A i).imag ^ 2)]
          congr 1
          · apply Finset.sum_congr rfl
            intro k hk
            rw [Finset.mem_filter] at hk
            rw [if_neg (by rw [hk.2]; exact fun h => nomatch h)]
          · rw [← sum_xor_reindex_filter n g.qubit c (by omega) hcq
              fun i => (A i).real ^ 2 + (A i).imag ^ 2]
            apply Finset.sum_congr rfl
            intro k hk
            rw [Finset.mem_filter] at hk
            have hb : k.testBit c = true := by
              rcases h : k.testBit c
              · exact absurd h hk.2
              · rfl
            rw [if_pos hb]
  · -- Identity: no-op
    rw [applyGate_other n A g (Or.inr (Or.inr hg))]

lemma sumProbs_initial (n : ℕ) : sumProbs (2 ^ n) initialAmps = 1 := by
  rw [sumProbs]
  rw [Finset.sum_eq_single_of_mem 0 (Finset.mem_range.mpr (Nat.pos_pow_of_pos n (by norm_num)))]
  · simp [initialAmps]
  · intro b _ hb
    simp [initialAmps, hb]

lemma sumProbs_foldGates (n : ℕ) (gates : List Gate) (hval : ∀ g ∈ gates, g.qubit < n)
    (A : ℕ → Amp) :
    sumProbs (2 ^ n) (gates.foldl (applyGate n) A) = sumProbs (2 ^ n) A := by
  induction gates generalizing A with
  | nil => rfl
  | cons g t ih =>
    rw [List.foldl_cons, ih (fun g' hg' => hval g' (by simp [hg'])) (applyGate n A g),
      sumProbs_applyGate n A g (hval g (by simp))]

/-- For any circuit whose gates all target in-range qubits, the ideal
probabilities sum to exactly 1. -/
lemma sum_idealProbs (n : ℕ) (gates : List Gate) (hval : ∀ g ∈ gates, g.qubit < n) :
    ∑ i ∈ Finset.range (2 ^ n), idealProbs n gates i = 1 := by
  have hrw : ∑ i ∈ Finset.range (2 ^ n), idealProbs n gates i
      = sumProbs (2 ^ n) (simulateAmps n gates) := rfl
  rw [hrw, simulateAmps]
  rw [sumProbs_foldGates n _ (fun g hg => hval g ((List.mem_insertionSort _).mp hg))
    initialAmps, sumProbs_initial]

/-! ### Claim theorems -/

/-- C5: applying a Hadamard gate with in-range target qubit `q` updates
each member of each unordered pair `{k, k XOR (1 <<< q)}` exactly once:
the member with bit `q` clear (`low`) becomes `(low + high) / sqrt 2`, the
member with bit `q` set (`high`) becomes `(low - high) / sqrt 2`,
independently on real and imaginary components, with both right-hand
sides taken from the pre-update amplitudes. -/
theorem claim_C5_hadamard_pair_update (n : ℕ) (A : ℕ → Amp) (g : Gate)
    (hg : g.type = GateType.H) (hq : g.qubit < n) (k : ℕ) (hk : k < 2 ^ n) :
    applyGate n A g k =
      if k &&& 1 <<< g.qubit = 0 then
        ⟨((A k).real + (A (k ^^^ 1 <<< g.qubit)).real) / Real.sqrt 2,
         ((A k).imag + (A (k ^^^ 1 <<< g.qubit)).imag) / Real.sqrt 2⟩
      else
        ⟨((A (k ^^^ 1 <<< g.qubit)).real - (A k).real) / Real.sqrt 2,
         ((A (k ^^^ 1 <<< g.qubit)).imag - (A k).imag) / Real.sqrt 2⟩ := by
  rw [applyGate_H_eq n A g hg]
  simp only [Nat.one_shiftLeft]
  rw [if_pos (Or.inl hk), hPoint]
  rcases hb : k.testBit g.qubit with _ | _
  · rw [if_neg (by simp), if_pos ((and_two_pow_eq_zero_iff k g.qubit).mpr hb)]
    simp only [mul_one_div]
  · rw [if_pos rfl,
      if_neg (by rw [and_two_pow_eq_zero_iff, hb]; exact fun h => nomatch h)]
    simp only [mul_one_div]

/-- Witness for C5 at a concrete input. -/
theorem claim_C5_witness :
    applyGate 1 initialAmps ⟨"h", GateType.H, 0, none, 0⟩ 0 =
      ⟨((initialAmps 0).real + (initialAmps 1).real) / Real.sqrt 2,
       ((initialAmps 0).imag + (initialAmps 1).imag) / Real.sqrt 2⟩ := by
  have h := claim_C5_hadamard_pair_update 1 initialAmps ⟨"h", GateType.H, 0, none, 0⟩ rfl
    (by decide) 0 (by decide)
  simpa using h

/-- C6: a ControlledNot gate whose control qubit is absent is applied as a
silent no-op: the amplitudes are returned unchanged. -/
theorem claim_C6_cnot_missing_control (n : ℕ) (A : ℕ → Amp) (g : Gate)
    (hg : g.type = GateType.CNOT) (hc : g.control = none) :
    applyGate n A g = A :=
  applyGate_CNOT_none n A g hg hc

/-- Witness for C6 at a concrete input. -/
theorem claim_C6_witness :
    applyGate 2 initialAmps ⟨"c", GateType.CNOT, 1, none, 1⟩ = initialAmps :=
  claim_C6_cnot_missing_control 2 initialAmps ⟨"c", GateType.CNOT, 1, none, 1⟩ rfl rfl

/-- C10: a ControlledNot gate whose control equals its target leaves the
amplitudes unchanged: for any index with the control bit set, xoring the
target mask clears that bit, so the swap partner is smaller and the
`i < target` guard never fires. -/
theorem claim_C10_cnot_self_control (n : ℕ) (A : ℕ → Amp) (g : Gate)
    (hg : g.type = GateType.CNOT) (hc : g.control = some g.qubit) :
    applyGate n A g = A :=
  applyGate_CNOT_selfControl n A g hg hc

/-- Witness for C10 at a concrete input. -/
theorem claim_C10_witness :
    applyGate 2 initialAmps ⟨"c", GateType.CNOT, 0, some 0, 0⟩ = initialAmps :=
  claim_C10_cnot_self_control 2 initialAmps ⟨"c", GateType.CNOT, 0, some 0, 0⟩ rfl rfl

/-- C4 counterexample: the code implements no PauliZ branch, so a PauliZ
gate falls through unchanged; on the state with amplitude 1 on basis
state 1, the amplitude is not negated as the claim demands. -/
theorem claim_C4_counterexample :
    applyGate 1 (fun i => if i = 1 then (⟨1, 0⟩ : Amp) else ⟨0, 0⟩)
        ⟨"z", GateType.Z, 0, none, 0⟩
      = (fun i => if i = 1 then (⟨1, 0⟩ : Amp) else ⟨0, 0⟩)
    ∧ applyGate 1 (fun i => if i = 1 then (⟨1, 0⟩ : Amp) else ⟨0, 0⟩)
        ⟨"z", GateType.Z, 0, none, 0⟩ 1
      ≠ (⟨-1, 0⟩ : Amp) := by
  refine ⟨applyGate_other 1 _ _ (Or.inr (Or.inl rfl)), ?_⟩
  rw [applyGate_other 1 _ _ (Or.inr (Or.inl rfl))]
  simp only [if_pos rfl]
  intro h
  have h' := congrArg Amp.real h
  norm_num at h'

/-- C4 amended: the reference `applyGate` only implements X, H and CNOT;
a PauliZ gate (like Identity) falls through the `if/else` chain and leaves
every amplitude unchanged. -/
theorem claim_C4_amended (n : ℕ) (A : ℕ → Amp) (g : Gate)
    (hg : g.type = GateType.Z ∨ g.type = GateType.I) :
    applyGate n A g = A := by
  rcases hg with hg | hg
  · exact applyGate_other n A g (Or.inr (Or.inl hg))
  · exact applyGate_other n A g (Or.inr (Or.inr hg))

/-- Witness for the amended C4 at a concrete input. -/
theorem claim_C4_witness :
    applyGate 1 initialAmps ⟨"idgate", GateType.I, 0, none, 0⟩ = initialAmps :=
  claim_C4_amended 1 initialAmps ⟨"idgate", GateType.I, 0, none, 0⟩ (Or.inr rfl)

/-- C7: the cumulative error used by the noise engine is
`1 - (1 - p) ^ max 1 gateCount`, and an empty circuit uses exponent 1. -/
theorem claim_C7_total_error (p : ℝ) (g : ℕ) :
    noiseTotalError p g = 1 - (1 - p) ^ max 1 g
    ∧ noiseTotalError p 0 = 1 - (1 - p) ^ 1 := by
  refine ⟨rfl, ?_⟩
  rw [noiseTotalError, Nat.max_zero]

/-- C1 counterexample: with `S = 2`, `ideal = [1, 0]`, BitFlip noise at
probability 1 and one gate, `flipAmount = 0.4`, but the entry at index 1
is `0.24`, not the `0.4` demanded by the claim's formula, because the
source reads the partner entry it already overwrote during the pass. -/
theorem claim_C1_counterexample :
    noiseTotalError (1 : ℝ) 1 * 0.4 = 0.4
    ∧ perturb 2 (fun i => if i = 0 then (1 : ℝ) else 0) ⟨NoiseType.BIT_FLIP, 1⟩ 1 1
      ≠ (fun i : ℕ => if i = 0 then (1 : ℝ) else 0) 1 * (1 - 0.4)
        + (fun i : ℕ => if i = 0 then (1 : ℝ) else 0) 0 * 0.4 := by
  constructor
  · rw [noiseTotalError, Nat.max_self]
    norm_num
  · have h1 : perturb 2 (fun i => if i = 0 then (1 : ℝ) else 0) ⟨NoiseType.BIT_FLIP, 1⟩ 1
        = (List.range 2).foldl
            (bfStep 2 (noiseTotalError (1 : ℝ) 1 * 0.4))
            (fun i => if i = 0 then (1 : ℝ) else 0) := rfl
    rw [h1, bfFold_eq 2 _ _ 2 le_rfl]
    norm_num [bfPoint, noiseTotalError]

/-- C1 amended: the BitFlip pass is an in-place sequential loop, so the
claimed formula holds only for indices processed before their partner
(`i ≤ S-1-i`); an index processed after its partner blends with the
partner's already-perturbed value instead of its ideal value. -/
theorem claim_C1_amended (states : ℕ) (ideal : ℕ → ℝ) (noise : NoiseConfig) (gateCount : ℕ)
    (hn : noise.type = NoiseType.BIT_FLIP) (i : ℕ) (hi : i < states) :
    (i ≤ states - 1 - i →
      perturb states ideal noise gateCount i
        = ideal i * (1 - noiseTotalError noise.probability gateCount * 0.4)
          + ideal (states - 1 - i) * (noiseTotalError noise.probability gateCount * 0.4))
    ∧ (states - 1 - i < i →
      perturb states ideal noise gateCount i
        = ideal i * (1 - noiseTotalError noise.probability gateCount * 0.4)
          + (ideal (states - 1 - i) * (1 - noiseTotalError noise.probability gateCount * 0.4)
             + ideal i * (noiseTotalError noise.probability gateCount * 0.4))
            * (noiseTotalError noise.probability gateCount * 0.4)) := by
  have h : perturb states ideal noise gateCount
      = fun k =>
          if k < states then
            bfPoint ideal states (noiseTotalError noise.probability gateCount * 0.4) k
          else ideal k := by
    simp only [perturb]
    rw [if_neg (by simp [hn]), if_pos hn, bfFold_eq states _ ideal states le_rfl]
  constructor
  · intro hle
    rw [h]
    simp only [if_pos hi]
    rw [bfPoint, if_pos hle]
  · intro hlt
    rw [h]
    simp only [if_pos hi]
    rw [bfPoint, if_neg (by omega)]

/-- Witness for the amended C1 at a concrete input (both halves). -/
theorem claim_C1_witness :
    perturb 2 (fun i => if i = 0 then (1 : ℝ) else 0) ⟨NoiseType.BIT_FLIP, 1⟩ 1 0
      = (fun i : ℕ => if i = 0 then (1 : ℝ) else 0) 0
          * (1 - noiseTotalError (1 : ℝ) 1 * 0.4)
        + (fun i : ℕ => if i = 0 then (1 : ℝ) else 0) 1
          * (noiseTotalError (1 : ℝ) 1 * 0.4)
    ∧ perturb 2 (fun i => if i = 0 then (1 : ℝ) else 0) ⟨NoiseType.BIT_FLIP, 1⟩ 1 1
      = (fun i : ℕ => if i = 0 then (1 : ℝ) else 0) 1
          * (1 - noiseTotalError (1 : ℝ) 1 * 0.4)
        + ((fun i : ℕ => if i = 0 then (1 : ℝ) else 0) 0
            * (1 - noiseTotalError (1 : ℝ) 1 * 0.4)
           + (fun i : ℕ => if i = 0 then (1 : ℝ) else 0) 1
            * (noiseTotalError (1 : ℝ) 1 * 0.4))
          * (noiseTotalError (1 : ℝ) 1 * 0.4) :=
  ⟨(claim_C1_amended 2 (fun i => if i = 0 then (1 : ℝ) else 0) ⟨NoiseType.BIT_FLIP, 1⟩ 1
      rfl 0 (by decide)).1 (by decide),
   (claim_C1_amended 2 (fun i => if i = 0 then (1 : ℝ) else 0) ⟨NoiseType.BIT_FLIP, 1⟩ 1
      rfl 1 (by decide)).2 (by decide)⟩

/-- C8: the noisy vector is the perturbed vector divided entrywise by its
sum; the noisy entries sum to 1 whenever that sum is nonzero, and when the
sum is exactly zero the divisor is 1 and the perturbed vector is returned
unchanged. -/
theorem claim_C8_renormalization (states : ℕ) (ideal : ℕ → ℝ) (noise : NoiseConfig)
    (gateCount : ℕ) :
    (∀ i, applyNoiseModel states ideal noise gateCount i
        = perturb states ideal noise gateCount i
          / (if (∑ j ∈ Finset.range states, perturb states ideal noise gateCount j) = 0
             then 1
             else ∑ j ∈ Finset.range states, perturb states ideal noise gateCount j))
    ∧ ((∑ j ∈ Finset.range states, perturb states ideal noise gateCount j) ≠ 0 →
        ∑ i ∈ Finset.range states, applyNoiseModel states ideal noise gateCount i = 1)
    ∧ ((∑ j ∈ Finset.range states, perturb states ideal noise gateCount j) = 0 →
        ∀ i, applyNoiseModel states ideal noise gateCount i
          = perturb states ideal noise gateCount i) := by
  refine ⟨fun i => rfl, ?_, ?_⟩
  · intro hs
    simp only [applyNoiseModel, if_neg hs]
    rw [← Finset.sum_div, div_self hs]
  · intro hs i
    simp only [applyNoiseModel, if_pos hs, div_one]

/-- Witness for C8 at a concrete input with nonzero perturbed sum. -/
theorem claim_C8_witness :
    ∑ i ∈ Finset.range 1,
      applyNoiseModel 1 (fun _ => (1 : ℝ)) ⟨NoiseType.DEPOLARIZING, 0⟩ 0 i = 1 :=
  (claim_C8_renormalization 1 (fun _ => (1 : ℝ)) ⟨NoiseType.DEPOLARIZING, 0⟩ 0).2.1
    (by norm_num [perturb, noiseTotalError])

/-- C3: every single gate update (with in-range target qubit) preserves
the total probability `Σ (real ^ 2 + imag ^ 2)`, and consequently every
gate sequence applied to the all-zero basis state yields ideal
probabilities summing to exactly 1. -/
theorem claim_C3_probability_conservation (n : ℕ) :
    (∀ (A : ℕ → Amp) (g : Gate), g.qubit < n →
        sumProbs (2 ^ n) (applyGate n A g) = sumProbs (2 ^ n) A)
    ∧ ∀ gates : List Gate, (∀ g ∈ gates, g.qubit < n) →
        ∑ i ∈ Finset.range (2 ^ n), idealProbs n gates i = 1 :=
  ⟨fun A g hq => sumProbs_applyGate n A g hq,
   fun gates hval => sum_idealProbs n gates hval⟩

/-- Witness for C3 at a concrete circuit. -/
theorem claim_C3_witness :
    sumProbs (2 ^ 1) (applyGate 1 initialAmps ⟨"h", GateType.H, 0, none, 0⟩)
      = sumProbs (2 ^ 1) initialAmps
    ∧ ∑ i ∈ Finset.range (2 ^ 1), idealProbs 1 [⟨"h", GateType.H, 0, none, 0⟩] i = 1 :=
  ⟨(claim_C3_probability_conservation 1).1 initialAmps ⟨"h", GateType.H, 0, none, 0⟩
      (by decide),
   (claim_C3_probability_conservation 1).2 [⟨"h", GateType.H, 0, none, 0⟩] (by decide)⟩

/-- With zero cumulative error every noise branch leaves the probability
vector unchanged. -/
lemma perturb_zero_error (states : ℕ) (ideal : ℕ → ℝ) (noise : NoiseConfig) (gateCount : ℕ)
    (hE : noiseTotalError noise.probability gateCount = 0) :
    perturb states ideal noise gateCount = ideal := by
  funext i
  simp only [perturb, hE]
  rcases hn : noise.type with _ | _ | _ | _ | _
  · -- DEPOLARIZING
    rw [if_pos rfl]
    ring
  · -- AMPLITUDE_DAMPING
    rw [if_neg (by simp), if_neg (by simp), if_pos rfl]
    by_cases hi : i = 0
    · subst hi
      norm_num
    · simp only [if_neg hi]
      ring
  · -- PHASE_DAMPING: generic decoherence branch
    rw [if_neg (by simp), if_neg (by simp), if_neg (by simp)]
    ring
  · -- BIT_FLIP
    rw [if_neg (by simp), if_pos rfl, bfFold_eq states _ ideal states le_rfl]
    by_cases hi : i < states
    · simp only [if_pos hi, bfPoint]
      by_cases hle : i ≤ states - 1 - i
      · rw [if_pos hle]
        ring
      · rw [if_neg hle]
        ring
    · simp only [if_neg hi]
  · -- PHASE_FLIP: generic decoherence branch
    rw [if_neg (by simp), if_neg (by simp), if_neg (by simp)]
    ring

/-- The fidelity of a nonnegative unit-sum vector against itself is 1. -/
lemma fidelity_self (states : ℕ) (ideal : ℕ → ℝ)
    (h0 : ∀ i ∈ Finset.range states, 0 ≤ ideal i)
    (h1 : ∑ i ∈ Finset.range states, ideal i = 1) :
    calculateFidelity states ideal ideal = 1 := by
  simp only [calculateFidelity]
  have hsq : ∀ i ∈ Finset.range states, Real.sqrt (ideal i * ideal i) = ideal i :=
    fun i hi => Real.sqrt_mul_self (h0 i hi)
  rw [Finset.sum_congr rfl hsq, h1]
  norm_num

/-- C2 counterexample: with the uniform ideal distribution on 2 states and
Depolarizing noise at probability 1/2 over one gate, the cumulative error
is strictly positive but the noisy distribution equals the ideal one and
the fidelity is exactly 1 — refuting "fidelity < 1 whenever
totalError > 0". -/
theorem claim_C2_counterexample :
    0 < noiseTotalError ((1 : ℝ) / 2) 1
    ∧ calculateFidelity 2 (fun _ => (1 : ℝ) / 2)
        (applyNoiseModel 2 (fun _ => (1 : ℝ) / 2) ⟨NoiseType.DEPOLARIZING, 1 / 2⟩ 1) = 1 := by
  constructor
  · rw [noiseTotalError, Nat.max_self]
    norm_num
  · have hpert : perturb 2 (fun _ => (1 : ℝ) / 2) ⟨NoiseType.DEPOLARIZING, 1 / 2⟩ 1
        = fun _ => (1 : ℝ) / 2 := by
      funext i
      show (1 : ℝ) / 2 * (1 - noiseTotalError ((1 : ℝ) / 2) 1)
          + 1 / ((2 : ℕ) : ℝ) * noiseTotalError ((1 : ℝ) / 2) 1 = 1 / 2
      rw [noiseTotalError, Nat.max_self]
      norm_num
    have hnoisy : applyNoiseModel 2 (fun _ => (1 : ℝ) / 2) ⟨NoiseType.DEPOLARIZING, 1 / 2⟩ 1
        = fun _ => (1 : ℝ) / 2 := by
      funext i
      simp only [applyNoiseModel, hpert]
      rw [Finset.sum_const, Finset.card_range]
      norm_num
    rw [hnoisy]
    exact fidelity_self 2 (fun _ => (1 : ℝ) / 2) (fun i _ => by norm_num)
      (by rw [Finset.sum_const, Finset.card_range]; norm_num)

/-- C2 amended: for every ideal vector with nonnegative entries summing to
1, the fidelity of the noise engine's output against the ideal vector lies
in [0, 1]; and whenever the cumulative error is zero the fidelity is
exactly 1.  (The converse fails: the fidelity can be 1 with positive
cumulative error, see the counterexample.) -/
theorem claim_C2_amended (states : ℕ) (ideal : ℕ → ℝ) (noise : NoiseConfig) (gateCount : ℕ)
    (h0 : ∀ i ∈ Finset.range states, 0 ≤ ideal i)
    (h1 : ∑ i ∈ Finset.range states, ideal i = 1) :
    0 ≤ calculateFidelity states ideal (applyNoiseModel states ideal noise gateCount)
    ∧ calculateFidelity states ideal (applyNoiseModel states ideal noise gateCount) ≤ 1
    ∧ (noiseTotalError noise.probability gateCount = 0 →
        calculateFidelity states ideal (applyNoiseModel states ideal noise gateCount) = 1) := by
  refine ⟨le_min (by norm_num) (mul_self_nonneg _), min_le_left _ _, ?_⟩
  intro hE
  have hp : applyNoiseModel states ideal noise gateCount = ideal := by
    simp only [applyNoiseModel, perturb_zero_error states ideal noise gateCount hE, h1]
    funext i
    rw [ite_self, div_one]
  rw [hp]
  exact fidelity_self states ideal h0 h1

/-- Witness for the amended C2 at a concrete input. -/
theorem claim_C2_witness :
    calculateFidelity 1 (fun _ => (1 : ℝ))
      (applyNoiseModel 1 (fun _ => (1 : ℝ)) ⟨NoiseType.DEPOLARIZING, 0⟩ 0) = 1 :=
  (claim_C2_amended 1 (fun _ => (1 : ℝ)) ⟨NoiseType.DEPOLARIZING, 0⟩ 0
    (fun i _ => by norm_num) (by simp)).2.2
    (by rw [noiseTotalError]; norm_num)

/-- The two-gate Bell circuit of the spec's test scenario:
Hadamard on qubit 0 at time 0, then ControlledNot with target qubit 1 and
control qubit 0 at time 1, on two qubits. -/
def bellGates : List Gate :=
  [⟨"g1", GateType.H, 0, none, 0⟩, ⟨"g2", GateType.CNOT, 1, some 0, 1⟩]

lemma bell_prob_0 : idealProbs 2 bellGates 0 = 1 / 2 := by
  have hA2 := applyGate_CNOT_eq 2
    (applyGate 2 initialAmps ⟨"g1", GateType.H, 0, none, 0⟩)
    ⟨"g2", GateType.CNOT, 1, some 0, 1⟩ 0 rfl rfl (by decide)
  have hA1 := applyGate_H_eq 2 initialAmps ⟨"g1", GateType.H, 0, none, 0⟩ rfl
  have hsim : ∀ k, simulateAmps 2 bellGates k
      = applyGate 2 (applyGate 2 initialAmps ⟨"g1", GateType.H, 0, none, 0⟩)
          ⟨"g2", GateType.CNOT, 1, some 0, 1⟩ k := fun k => rfl
  show (simulateAmps 2 bellGates 0).real ^ 2 + (simulateAmps 2 bellGates 0).imag ^ 2 = 1 / 2
  rw [hsim 0, hA2]
  simp only []
  rw [if_neg (by decide)]
  rw [hA1]
  simp only []
  rw [if_pos (by decide), hPoint, if_neg (by decide)]
  simp only [initialAmps]
  norm_num

lemma bell_prob_1 : idealProbs 2 bellGates 1 = 0 := by
  have hA2 := applyGate_CNOT_eq 2
    (applyGate 2 initialAmps ⟨"g1", GateType.H, 0, none, 0⟩)
    ⟨"g2", GateType.CNOT, 1, some 0, 1⟩ 0 rfl rfl (by decide)
  have hA1 := applyGate_H_eq 2 initialAmps ⟨"g1", GateType.H, 0, none, 0⟩ rfl
  have hsim : ∀ k, simulateAmps 2 bellGates k
      = applyGate 2 (applyGate 2 initialAmps ⟨"g1", GateType.H, 0, none, 0⟩)
          ⟨"g2", GateType.CNOT, 1, some 0, 1⟩ k := fun k => rfl
  show (simulateAmps 2 bellGates 1).real ^ 2 + (simulateAmps 2 bellGates 1).imag ^ 2 = 0
  rw [hsim 1, hA2]
  simp only []
  rw [if_pos (by decide)]
  rw [hA1]
  simp only []
  rw [if_pos (by decide), hPoint, if_pos (by decide)]
  simp only [initialAmps]
  norm_num
  rw [if_neg (by decide)]
  norm_num

lemma bell_prob_2 : idealProbs 2 bellGates 2 = 0 := by
  have hA2 := applyGate_CNOT_eq 2
    (applyGate 2 initialAmps ⟨"g1", GateType.H, 0, none, 0⟩)
    ⟨"g2", GateType.CNOT, 1, some 0, 1⟩ 0 rfl rfl (by decide)
  have hA1 := applyGate_H_eq 2 initialAmps ⟨"g1", GateType.H, 0, none, 0⟩ rfl
  have hsim : ∀ k, simulateAmps 2 bellGates k
      = applyGate 2 (applyGate 2 initialAmps ⟨"g1", GateType.H, 0, none, 0⟩)
          ⟨"g2", GateType.CNOT, 1, some 0, 1⟩ k := fun k => rfl
  show (simulateAmps 2 bellGates 2).real ^ 2 + (simulateAmps 2 bellGates 2).imag ^ 2 = 0
  rw [hsim 2, hA2]
  simp only []
  rw [if_neg (by decide)]
  rw [hA1]
  simp only []
  rw [if_pos (by decide), hPoint, if_neg (by decide)]
  simp only [initialAmps]
  norm_num

lemma bell_prob_3 : idealProbs 2 bellGates 3 = 1 / 2 := by
  have hA2 := applyGate_CNOT_eq 2
    (applyGate 2 initialAmps ⟨"g1", GateType.H, 0, none, 0⟩)
    ⟨"g2", GateType.CNOT, 1, some 0, 1⟩ 0 rfl rfl (by decide)
  have hA1 := applyGate_H_eq 2 initialAmps ⟨"g1", GateType.H, 0, none, 0⟩ rfl
  have hsim : ∀ k, simulateAmps 2 bellGates k
      = applyGate 2 (applyGate 2 initialAmps ⟨"g1", GateType.H, 0, none, 0⟩)
          ⟨"g2", GateType.CNOT, 1, some 0, 1⟩ k := fun k => rfl
  show (simulateAmps 2 bellGates 3).real ^ 2 + (simulateAmps 2 bellGates 3).imag ^ 2 = 1 / 2
  rw [hsim 3, hA2]
  simp only []
  rw [if_pos (by decide)]
  rw [hA1]
  simp only []
  rw [if_pos (by decide), hPoint, if_pos (by decide)]
  simp only [initialAmps]
  norm_num
  rw [if_pos (by decide)]
  norm_num

/-- C9: the Bell circuit on two qubits yields the ideal distribution
`{"00": 1/2, "01": 0, "10": 0, "11": 1/2}`. -/
theorem claim_C9_bell_distribution :
    toDict 2 (idealProbs 2 bellGates)
      = [("00", 1 / 2), ("01", 0), ("10", 0), ("11", 1 / 2)] := by
  have hrange : List.range (2 ^ 2) = [0, 1, 2, 3] := by decide
  rw [toDict, hrange]
  simp only [List.map_cons, List.map_nil]
  rw [bell_prob_0, bell_prob_1, bell_prob_2, bell_prob_3,
    (by decide : bitString 2 0 = "00"), (by decide : bitString 2 1 = "01"),
    (by decide : bitString 2 2 = "10"), (by decide : bitString 2 3 = "11")]

end NoiseLab
